import Mathlib

/-!
# kv-cache: the cache engine of `src/cache/cache.go`

A shallow embedding of the Go cache engine.

* A Go `string` is a Lean `String`; Go's `len(s)` (length in bytes) is
  `String.utf8ByteSize`.  The engine never looks inside a string: it compares
  strings and takes their length.
* `time.Time` and `time.Duration` are integers counting nanoseconds.  Every
  `time.Time` the engine handles comes from `time.Now()` and carries a reading
  of the monotonic clock of the process, so the difference of two of them fits
  a `Duration` and `t.Sub(u)` is the plain difference `t - u` (the saturation of
  `Sub` is not reached).  The value `time.Now()` returns inside an operation is
  an explicit argument `now` of that operation.
* `map[string]CacheItem` is a list of key/item pairs without repeated keys.
  The order in which a `range` loop yields the keys is not fixed by Go; where
  the result of a loop depends on it, the order is an explicit argument.
* `runtime.MemStats.Alloc` is a `uint64`; the sampled value is an explicit
  argument `alloc`.  `uint64` arithmetic wraps modulo `2 ^ 64`.
* The mutex makes every operation atomic; a goroutine launched by `Get` is
  recorded in a list of pending goroutines and runs as a step of its own.
-/

namespace KVCache

/-! ## Data model -/

/-- Go `len(s)` of a string: its length in bytes. -/
def len (s : String) : Nat := s.utf8ByteSize

/-- Go `type CacheItem struct { value string; timestamp time.Time }`. -/
structure CacheItem where
  value : String
  timestamp : Int
deriving DecidableEq, Repr

/-- Go `map[string]CacheItem`: key/item pairs, at most one pair per key. -/
structure Table where
  entries : List (String × CacheItem)
  nodup : (entries.map Prod.fst).Nodup

instance : DecidableEq Table := fun m n =>
  decidable_of_iff (m.entries = n.entries)
    ⟨fun h => by cases m; cases n; cases h; rfl, fun h => congrArg Table.entries h⟩

/-- Go `make(map[string]CacheItem)`. -/
def Table.empty : Table := ⟨[], List.nodup_nil⟩

/-- Go `item, exists := m[k]`: `some item` when the key is present. -/
def Table.lookup (m : Table) (k : String) : Option CacheItem :=
  m.entries.lookup k

/-- Go `len(m)`. -/
def Table.size (m : Table) : Nat := m.entries.length

/-- The keys of the map. -/
def Table.keys (m : Table) : List String := m.entries.map Prod.fst

/-- The pairs of a list whose key is not `k`. -/
def dropKey (k : String) (l : List (String × CacheItem)) : List (String × CacheItem) :=
  l.filter (fun e => decide (e.1 ≠ k))

/-- Go `delete(m, k)`. -/
def Table.delete (m : Table) (k : String) : Table :=
  ⟨dropKey k m.entries,
    List.Nodup.sublist (List.Sublist.map _ (List.filter_sublist m.entries)) m.nodup⟩

/-- Go `m[k] = item`: the pair for `k`, and the pairs of the other keys. -/
def Table.store (m : Table) (k : String) (item : CacheItem) : Table :=
  ⟨(k, item) :: dropKey k m.entries,
    by
      rw [List.map_cons, List.nodup_cons]
      refine ⟨?_, List.Nodup.sublist (List.Sublist.map _ (List.filter_sublist m.entries)) m.nodup⟩
      intro hk
      obtain ⟨e, he, hek⟩ := List.mem_map.1 hk
      have h2 := (List.mem_filter.1 he).2
      simp only [decide_eq_true_eq] at h2
      exact h2 hek⟩

/-- Go `*time.Ticker`: its period and whether `Stop` was called on it. -/
structure Ticker where
  interval : Int
  stopped : Bool
deriving DecidableEq, Repr

/-- Go `type Cache struct` (the mutex is not state of the model). -/
structure Cache where
  items : Table
  maxMemoryMB : Int
  maxItemAge : Int
  cleanupTicker : Option Ticker
deriving DecidableEq

/-- Go `type CacheConfig struct`. -/
structure CacheConfig where
  MaxMemoryMB : Int
  MaxItemAge : Int
  CleanupInterval : Int
deriving DecidableEq, Repr

/-! ## Operations -/

/-- Go `NewCache`.  A ticker is created when either eviction strategy is
enabled; `time.NewTicker` panics on a non-positive interval, which is `none`. -/
def NewCache (config : CacheConfig) : Option Cache :=
  if config.MaxMemoryMB > 0 ∨ config.MaxItemAge > 0 then
    if config.CleanupInterval ≤ 0 then none
    else some
      { items := Table.empty
        maxMemoryMB := config.MaxMemoryMB
        maxItemAge := config.MaxItemAge
        cleanupTicker := some ⟨config.CleanupInterval, false⟩ }
  else some
    { items := Table.empty
      maxMemoryMB := config.MaxMemoryMB
      maxItemAge := config.MaxItemAge
      cleanupTicker := none }

/-- The text of the error `Put` returns. -/
def putError : String := "key or value exceeds 256 characters"

/-- Go `(*Cache).Put`, with `now` the value of `time.Now()`.  The result is the
cache afterwards, the boolean `existed`, and the error (`none` for `nil`). -/
def Cache.Put (c : Cache) (now : Int) (key value : String) : Cache × Bool × Option String :=
  if len key > 256 ∨ len value > 256 then
    (c, false, some putError)
  else
    let existed := (c.items.lookup key).isSome
    ({ c with items := c.items.store key ⟨value, now⟩ }, existed, none)

/-- Go `(*Cache).Get`, with `now` the value of `time.Now()` inside `time.Since`.
The result is the pair `(value, found)` the call returns, and the key captured
by the goroutine the call launches (`none` when it launches none).  The table is
not touched by the call itself. -/
def Cache.Get (c : Cache) (now : Int) (key : String) : (String × Bool) × Option String :=
  match c.items.lookup key with
  | none => (("", false), none)
  | some item =>
    if c.maxItemAge > 0 ∧ now - item.timestamp > c.maxItemAge then
      (("", false), some key)
    else
      ((item.value, true), none)

/-- The body of the goroutine launched by `Get`: `delete(c.items, key)` under
the write lock. -/
def Cache.lazyDelete (c : Cache) (key : String) : Cache :=
  { c with items := c.items.delete key }

/-- Go `(*Cache).Stop`. -/
def Cache.Stop (c : Cache) : Cache :=
  match c.cleanupTicker with
  | none => c
  | some t => { c with cleanupTicker := some { t with stopped := true } }

/-- The time-based loop of `cleanup`: every pair is visited once and its key is
deleted when its age exceeds `maxItemAge`.  The loop deletes only the key it is
visiting, so its result is the same for every iteration order. -/
def evictExpired (m : Table) (now maxItemAge : Int) : Table :=
  m.entries.foldl
    (fun acc e => if now - e.2.timestamp > maxItemAge then acc.delete e.1 else acc) m

/-- The table after the time-based phase of `cleanup`, which runs when
`c.maxItemAge > 0`. -/
def Cache.timePhase (c : Cache) (now : Int) : Table :=
  if c.maxItemAge > 0 then evictExpired c.items now c.maxItemAge else c.items

/-- Go conversion `uint64(x)` of an `int64`. -/
def uint64 (x : Int) : Nat := (x % 2 ^ 64).toNat

/-- Multiplication of `uint64` values. -/
def mulU64 (a b : Nat) : Nat := (a * b) % 2 ^ 64

/-- The threshold `uint64(c.maxMemoryMB)*1024*1024` as the code computes it. -/
def memThreshold (maxMemoryMB : Int) : Nat :=
  mulU64 (mulU64 (uint64 maxMemoryMB) 1024) 1024

/-- The guard of the memory-based phase of `cleanup`:
`c.maxMemoryMB > 0` and `m.Alloc > uint64(c.maxMemoryMB)*1024*1024`. -/
def memFires (maxMemoryMB : Int) (alloc : Nat) : Bool :=
  decide (maxMemoryMB > 0) && decide (alloc > memThreshold maxMemoryMB)

/-- Local type `keyAge` of `cleanup`. -/
structure keyAge where
  key : String
  timestamp : Int
deriving DecidableEq, Repr

/-- The slice `items` built by `for k, v := range c.items`, the loop yielding
the keys in the order `order`. -/
def rangeItems (m : Table) (order : List String) : List keyAge :=
  order.filterMap (fun k => (m.lookup k).map (fun v => keyAge.mk k v.timestamp))

/-- The loop `for i := 0; i < len(items)/2; i++ { delete(c.items, items[i].key) }`. -/
def evictHalf (m : Table) (items : List keyAge) : Table :=
  (items.take (items.length / 2)).foldl (fun acc ka => acc.delete ka.key) m

/-- Go `(*Cache).cleanup` (the spec's Sweep), with `now` the value of
`time.Now()`, `alloc` the sampled `m.Alloc`, and `order` the order in which the
`range` loop of the memory-based phase yields the keys. -/
def Cache.cleanup (c : Cache) (now : Int) (alloc : Nat) (order : List String) : Cache :=
  let items1 := c.timePhase now
  let items2 :=
    if memFires c.maxMemoryMB alloc then evictHalf items1 (rangeItems items1 order)
    else items1
  { c with items := items2 }

/-! ## Executions -/

/-- The engine together with the goroutines launched by `Get` that have not run
yet (each is the key it will delete). -/
structure State where
  cache : Cache
  pending : List String
deriving DecidableEq

/-- One atomic step of an execution. -/
inductive Op where
  | put (now : Int) (key value : String)
  | get (now : Int) (key : String)
  | lazyDelete (i : Nat)
  | sweep (now : Int) (alloc : Nat) (order : List String)
  | stop
deriving DecidableEq, Repr

/-- The state after one step.  `lazyDelete i` runs the pending goroutine number
`i` (and is no step when there is none). -/
def step (s : State) : Op → State
  | .put now key value => { s with cache := (s.cache.Put now key value).1 }
  | .get now key =>
    match (s.cache.Get now key).2 with
    | none => s
    | some k => { s with pending := s.pending ++ [k] }
  | .lazyDelete i =>
    match s.pending.get? i with
    | none => s
    | some k => { cache := s.cache.lazyDelete k, pending := s.pending.eraseIdx i }
  | .sweep now alloc order => { s with cache := s.cache.cleanup now alloc order }
  | .stop => { s with cache := s.cache.Stop }

/-- The state after a sequence of steps. -/
def run (s : State) (ops : List Op) : State := ops.foldl step s

/-- The state right after `NewCache`: no goroutine is pending. -/
def initial (c : Cache) : State := ⟨c, []⟩

/-- A sequence of `Put` calls, each given as `(now, key, value)`, one after the
other. -/
def putAll (c : Cache) : List (Int × String × String) → Cache
  | [] => c
  | (now, key, value) :: rest => putAll (c.Put now key value).1 rest

/-- A step that is a `Get`, or a sweep whose memory-based phase does not fire
(for a cache whose memory limit is `maxMemoryMB`). -/
def calmStep (maxMemoryMB : Int) : Op → Bool
  | .get _ _ => true
  | .sweep _ alloc _ => !memFires maxMemoryMB alloc
  | _ => false

/-- A string of `n` bytes (`n` times the letter `a`). -/
def bytes (n : Nat) : String := String.mk (List.replicate n 'a')

/-- The results `(existed, error)` of a sequence of `Put` calls, each given as
`(now, key, value)`, run one after the other. -/
def putResults (c : Cache) : List (Int × String × String) → List (Bool × Option String)
  | [] => []
  | (now, key, value) :: rest =>
    (c.Put now key value).2 :: putResults (c.Put now key value).1 rest

/-- The cache after `Put(key, v1)` at time `t1` and `Put(key, v2)` at time `t2`. -/
def rePut (c : Cache) (t1 t2 : Int) (key v1 v2 : String) : Cache :=
  ((c.Put t1 key v1).1.Put t2 key v2).1

/-! ## HTTP handlers (`src/api/handlers.go`) -/

/-- Go `type Handler struct { cache *cache.Cache }`. -/
structure Handler where
  cache : Cache
deriving DecidableEq

/-- Go `type PutRequest struct`. -/
structure PutRequest where
  Key : String
  Value : String
deriving DecidableEq, Repr

/-- Go `type Response struct`. -/
structure Response where
  Status : String
  Message : String
  Key : String
  Value : String
deriving DecidableEq, Repr

/-- Go `(*Handler).Put`.  `bound` is what `c.Bind(&req)` made of the request
body: `none` when it returns an error, the bound request otherwise.  The result
is the handler afterwards and the answer `c.JSON(code, response)`. -/
def Handler.Put (h : Handler) (now : Int) (bound : Option PutRequest) :
    Handler × Nat × Response :=
  match bound with
  | none => (h, 400, ⟨"ERROR", "Invalid request format", "", ""⟩)
  | some req =>
    match h.cache.Put now req.Key req.Value with
    | (c1, _, some err) => (⟨c1⟩, 400, ⟨"ERROR", err, "", ""⟩)
    | (c1, existed, none) =>
      (⟨c1⟩, 200,
        ⟨"OK", if existed then "Key updated successfully" else "Key inserted successfully",
          "", ""⟩)

/-- Go `(*Handler).Get`.  `key` is `c.QueryParam("key")`, the empty string when
the parameter is missing.  The result is the answer `c.JSON(code, response)` and
the key captured by the goroutine `Cache.Get` launches, if any. -/
def Handler.Get (h : Handler) (now : Int) (key : String) : (Nat × Response) × Option String :=
  if key = "" then
    ((400, ⟨"ERROR", "Key parameter is required", "", ""⟩), none)
  else
    match h.cache.Get now key with
    | ((_, false), spawned) => ((404, ⟨"ERROR", "Key not found.", "", ""⟩), spawned)
    | ((value, true), spawned) => ((200, ⟨"OK", "", key, value⟩), spawned)

/-! ## Example states -/

/-- A configuration with a time-to-live of 10 and a memory limit of 1 MB. -/
def cfgTTL : CacheConfig := ⟨1, 10, 1⟩

/-- The cache `NewCache cfgTTL` returns. -/
def cacheTTL : Cache := ⟨Table.empty, 1, 10, some ⟨1, false⟩⟩

/-- The cache `cacheTTL` after `Put("k", "old")` at time 0. -/
def cacheTTL1 : Cache := (cacheTTL.Put 0 "k" "old").1

/-- The cache `cacheTTL1` after `Put("j", "young")` at time 8. -/
def cacheTTL2 : Cache := (cacheTTL1.Put 8 "j" "young").1

/-- A cache with a memory limit of 1 MB and no time-to-live. -/
def cacheMem : Cache := ⟨Table.empty, 1, 0, some ⟨1, false⟩⟩

/-- The cache `cacheMem` after `Put("a", "1")` at time 1 and `Put("b", "2")` at
time 2. -/
def cacheMem2 : Cache := ((cacheMem.Put 1 "a" "1").1.Put 2 "b" "2").1

/-- A cache with a memory limit of `2 ^ 44` MB and no time-to-live. -/
def cacheHuge : Cache := ⟨Table.empty, 17592186044416, 0, some ⟨1, false⟩⟩

/-- The cache `cacheHuge` after `Put("a", "1")` at time 1 and `Put("b", "2")` at
time 2. -/
def cacheHuge2 : Cache := ((cacheHuge.Put 1 "a" "1").1.Put 2 "b" "2").1

/-- Steps of an execution: three `Put`s (the second over the size bound), a `Get`
that finds the entry expired, the deletion it launched, a sweep and `Stop`. -/
def sampleOps : List Op :=
  [.put 0 "k" "old", .put 1 (bytes 257) "x", .put 14 "j" "young", .get 20 "k",
    .lazyDelete 0, .sweep 20 2097152 ["j"], .stop]

/-- Three `Put`s to distinct keys, as `(now, key, value)`. -/
def samplePuts : List (Int × String × String) :=
  [(1, "a", "1"), (2, "b", "2"), (3, "c", "3")]

/-- The `Put`s `samplePuts` in another order. -/
def samplePutsShuffled : List (Int × String × String) :=
  [(3, "c", "3"), (1, "a", "1"), (2, "b", "2")]

/-- Sweeps whose memory-based phase does not fire, and `Get`s. -/
def calmOps : List Op :=
  [.sweep 100 5 ["k"], .get 1000 "k", .sweep 1000000 1048576 ["k"], .get 2000000 "z"]

/-- The cache `NewCache` returns for a configuration without eviction. -/
def cachePlain : Cache := ⟨Table.empty, 0, 0, none⟩

/-- Steps of an execution with a time-to-live of 10: `"k"` is stored at time 0, a
`Get` at time 20 finds it expired and launches its deletion, and `"k"` is stored
again at time 21 before that deletion runs. -/
def raceOps : List Op :=
  [.put 0 "k" "old", .get 20 "k", .put 21 "k" "new"]

/-! ## Lemmas on the table -/

theorem len_bytes (n : Nat) : len (bytes n) = n := by
  unfold len bytes
  show String.utf8ByteSize.go (List.replicate n 'a') = n
  induction n with
  | zero => rfl
  | succ n ih =>
    rw [List.replicate_succ, String.utf8ByteSize.go, ih]
    rfl

theorem lookup_dropKey_self (k : String) (l : List (String × CacheItem)) :
    (dropKey k l).lookup k = none := by
  induction l with
  | nil => rfl
  | cons e l ih =>
    obtain ⟨k1, v1⟩ := e
    by_cases h : k1 = k
    · simpa [dropKey, h] using ih
    · have hne : (k == k1) = false := by simpa using fun h2 => h h2.symm
      simpa [dropKey, h, List.lookup_cons, hne] using ih

theorem lookup_dropKey_ne {k k1 : String} (h : k1 ≠ k) (l : List (String × CacheItem)) :
    (dropKey k l).lookup k1 = l.lookup k1 := by
  induction l with
  | nil => rfl
  | cons e l ih =>
    obtain ⟨k2, v2⟩ := e
    by_cases h2 : k2 = k
    · subst h2
      have hne : (k1 == k2) = false := by simpa using h
      simpa [dropKey, List.lookup_cons, hne] using ih
    · by_cases h3 : k1 = k2
      · simp [dropKey, h2, List.lookup_cons, h3]
      · have hne : (k1 == k2) = false := by simpa using h3
        simpa [dropKey, h2, List.lookup_cons, hne] using ih

theorem lookup_store_self (m : Table) (k : String) (item : CacheItem) :
    (m.store k item).lookup k = some item := by
  simp [Table.store, Table.lookup, List.lookup_cons]

theorem lookup_store_ne (m : Table) {k k1 : String} (h : k1 ≠ k) (item : CacheItem) :
    (m.store k item).lookup k1 = m.lookup k1 := by
  have hne : (k1 == k) = false := by simpa using h
  simp only [Table.store, Table.lookup, List.lookup_cons, hne]
  exact lookup_dropKey_ne h m.entries

theorem lookup_delete_self (m : Table) (k : String) : (m.delete k).lookup k = none :=
  lookup_dropKey_self k m.entries

theorem lookup_delete_ne (m : Table) {k k1 : String} (h : k1 ≠ k) :
    (m.delete k).lookup k1 = m.lookup k1 :=
  lookup_dropKey_ne h m.entries

/-- What a `Put` within the size bound does. -/
theorem Put_ok (c : Cache) (now : Int) (key value : String)
    (hk : len key ≤ 256) (hv : len value ≤ 256) :
    c.Put now key value =
      ({ c with items := c.items.store key ⟨value, now⟩ }, (c.items.lookup key).isSome, none) := by
  have h : ¬ (len key > 256 ∨ len value > 256) := by omega
  simp [Cache.Put, h]

/-- What a `Put` over the size bound does. -/
theorem Put_err (c : Cache) (now : Int) (key value : String)
    (h : len key > 256 ∨ len value > 256) :
    c.Put now key value = (c, false, some putError) := by
  simp [Cache.Put, h]

/-- `Get` of an absent key. -/
theorem Get_absent {c : Cache} {key : String} (now : Int) (h : c.items.lookup key = none) :
    c.Get now key = (("", false), none) := by
  simp only [Cache.Get, h]

/-- `Get` of a key whose entry is older than the time-to-live. -/
theorem Get_expired {c : Cache} {key : String} {item : CacheItem} {now : Int}
    (h : c.items.lookup key = some item)
    (hexp : c.maxItemAge > 0 ∧ now - item.timestamp > c.maxItemAge) :
    c.Get now key = (("", false), some key) := by
  simp only [Cache.Get, h]
  rw [if_pos hexp]

/-- `Get` of a key whose entry is not older than the time-to-live. -/
theorem Get_live {c : Cache} {key : String} {item : CacheItem} {now : Int}
    (h : c.items.lookup key = some item)
    (hlive : ¬ (c.maxItemAge > 0 ∧ now - item.timestamp > c.maxItemAge)) :
    c.Get now key = ((item.value, true), none) := by
  simp only [Cache.Get, h]
  rw [if_neg hlive]

theorem NewCache_items {config : CacheConfig} {c0 : Cache} (h : NewCache config = some c0) :
    c0.items = Table.empty := by
  unfold NewCache at h
  split_ifs at h <;> simp at h <;> rw [← h]

/-! ## Put and Get -/

/-- C1: for every cache state, every key and value of at most 256 bytes and every
time `t`, `Put(key, value)` at `t` succeeds, and a `Get(key)` run next at a time
`t'` with `t ≤ t'` and `t' - t ≤ maxItemAge` (any `t'` when `maxItemAge ≤ 0`)
returns `(value, true)`. -/
theorem put_get_roundtrip (c : Cache) (t t' : Int) (key value : String)
    (hk : len key ≤ 256) (hv : len value ≤ 256)
    (hage : c.maxItemAge ≤ 0 ∨ (t ≤ t' ∧ t' - t ≤ c.maxItemAge)) :
    (c.Put t key value).2.2 = none ∧
      ((c.Put t key value).1.Get t' key).1 = (value, true) := by
  rw [Put_ok c t key value hk hv]
  refine ⟨rfl, ?_⟩
  have hnot : ¬ (c.maxItemAge > 0 ∧ t' - t > c.maxItemAge) := by omega
  simp [Cache.Get, lookup_store_self, hnot]

/-- C1 at a concrete input: the key already holds another value, the time-to-live
is 10, the `Put` is at time 1 and the `Get` at time 11. -/
theorem put_get_roundtrip_witness :
    cacheTTL1.items.lookup "k" = some ⟨"old", 0⟩ ∧
      (cacheTTL1.Put 1 "k" "new").2.2 = none ∧
      ((cacheTTL1.Put 1 "k" "new").1.Get 11 "k").1 = ("new", true) :=
  ⟨by decide,
    put_get_roundtrip cacheTTL1 1 11 "k" "new" (by decide) (by decide)
      (Or.inr ⟨by decide, by decide⟩)⟩

/-- C2: `Put(key, value)` returns an error if and only if `len(key) > 256` or
`len(value) > 256`; when it returns an error it returns `existed = false` and the
cache (table included) is unchanged; 256 bytes are accepted and 257 rejected. -/
theorem put_error_iff (c : Cache) (now : Int) (key value : String) :
    ((c.Put now key value).2.2 ≠ none ↔ (len key > 256 ∨ len value > 256)) ∧
      ((c.Put now key value).2.2 ≠ none →
        (c.Put now key value).2.1 = false ∧ (c.Put now key value).1 = c) ∧
      (c.Put now (bytes 256) (bytes 256)).2.2 = none ∧
      (c.Put now (bytes 257) value).2.2 ≠ none ∧
      (c.Put now key (bytes 257)).2.2 ≠ none := by
  have h256 : len (bytes 256) ≤ 256 := by rw [len_bytes]
  have h257 : len (bytes 257) > 256 := by rw [len_bytes]; omega
  refine ⟨?_, ?_, ?_, ?_, ?_⟩
  · by_cases h : len key > 256 ∨ len value > 256
    · simp [Put_err c now key value h, h]
    · have hk : len key ≤ 256 := by omega
      have hv : len value ≤ 256 := by omega
      simp [Put_ok c now key value hk hv, h]
  · intro herr
    by_cases h : len key > 256 ∨ len value > 256
    · simp [Put_err c now key value h]
    · have hk : len key ≤ 256 := by omega
      have hv : len value ≤ 256 := by omega
      simp [Put_ok c now key value hk hv] at herr
  · rw [Put_ok c now _ _ h256 h256]
  · simp [Put_err c now (bytes 257) value (Or.inl h257)]
  · simp [Put_err c now key (bytes 257) (Or.inr h257)]

/-- C2 at a concrete input: a `Put` of a 257-byte value under a key that is
present fails and leaves the cache, the entry of that key included, as it was. -/
theorem put_error_iff_witness :
    (cacheTTL1.Put 5 "k" (bytes 257)).2.2 ≠ none ∧
      (cacheTTL1.Put 5 "k" (bytes 257)).2.1 = false ∧
      (cacheTTL1.Put 5 "k" (bytes 257)).1 = cacheTTL1 :=
  have herr : (cacheTTL1.Put 5 "k" (bytes 257)).2.2 ≠ none :=
    (put_error_iff cacheTTL1 5 "k" (bytes 257)).2.2.2.2
  ⟨herr, (put_error_iff cacheTTL1 5 "k" (bytes 257)).2.1 herr⟩

/-- C3: a successful `Put(key, value)` returns `existed = true` if and only if the
table held an entry for `key` right before the call.  On the cache `NewCache`
returns: `Put("a","1")` returns `existed = false`, then `Put("a","2")` returns
`existed = true`, then `Get("a")` (within the time-to-live) returns `("2", true)` and
`Get("missing")` returns `("", false)`. -/
theorem put_existed_iff (c : Cache) (now : Int) (key value : String)
    (hk : len key ≤ 256) (hv : len value ≤ 256)
    (config : CacheConfig) (c0 : Cache) (t1 t2 t3 : Int)
    (h0 : NewCache config = some c0)
    (hage : c0.maxItemAge ≤ 0 ∨ t3 - t2 ≤ c0.maxItemAge) :
    ((c.Put now key value).2.2 = none ∧
      ((c.Put now key value).2.1 = true ↔ ∃ item, c.items.lookup key = some item)) ∧
      (c0.Put t1 "a" "1").2 = (false, none) ∧
      ((c0.Put t1 "a" "1").1.Put t2 "a" "2").2 = (true, none) ∧
      (((c0.Put t1 "a" "1").1.Put t2 "a" "2").1.Get t3 "a").1 = ("2", true) ∧
      (((c0.Put t1 "a" "1").1.Put t2 "a" "2").1.Get t3 "missing").1 = ("", false) := by
  have ha : len "a" ≤ 256 := by decide
  have h1 : len "1" ≤ 256 := by decide
  have h2 : len "2" ≤ 256 := by decide
  have hm : ("missing" : String) ≠ "a" := by decide
  have hnot : ¬ (c0.maxItemAge > 0 ∧ t3 - t2 > c0.maxItemAge) := by omega
  have hempty : c0.items.lookup "a" = none := by rw [NewCache_items h0]; rfl
  have hemptym : c0.items.lookup "missing" = none := by rw [NewCache_items h0]; rfl
  refine ⟨⟨?_, ?_⟩, ?_, ?_, ?_, ?_⟩
  · rw [Put_ok c now key value hk hv]
  · rw [Put_ok c now key value hk hv]
    exact Option.isSome_iff_exists
  · rw [Put_ok c0 t1 "a" "1" ha h1, hempty]; rfl
  · rw [Put_ok c0 t1 "a" "1" ha h1, Put_ok _ t2 "a" "2" ha h2]
    simp [lookup_store_self]
  · rw [Put_ok c0 t1 "a" "1" ha h1, Put_ok _ t2 "a" "2" ha h2]
    simp [Cache.Get, lookup_store_self, hnot]
  · rw [Put_ok c0 t1 "a" "1" ha h1, Put_ok _ t2 "a" "2" ha h2]
    simp [Cache.Get, lookup_store_ne _ hm, hemptym]

/-- C3 at a concrete input: on `cacheTTL1` the key `"k"` is present and a `Put`
of it returns `existed = true`; the example sequence runs on `NewCache cfgTTL`. -/
theorem put_existed_iff_witness :
    NewCache cfgTTL = some cacheTTL ∧
      (cacheTTL1.Put 3 "k" "v").2.1 = true ∧
      (cacheTTL.Put 1 "a" "1").2 = (false, none) ∧
      ((cacheTTL.Put 1 "a" "1").1.Put 2 "a" "2").2 = (true, none) ∧
      (((cacheTTL.Put 1 "a" "1").1.Put 2 "a" "2").1.Get 12 "a").1 = ("2", true) ∧
      (((cacheTTL.Put 1 "a" "1").1.Put 2 "a" "2").1.Get 12 "missing").1 = ("", false) :=
  have h := put_existed_iff cacheTTL1 3 "k" "v" (by decide) (by decide)
    cfgTTL cacheTTL 1 2 12 (by decide) (Or.inr (by decide))
  ⟨by decide, h.1.2.2 ⟨⟨"old", 0⟩, by decide⟩, h.2⟩

/-- C4: `Get(key)` at time `now` returns `(v, true)` exactly when the table holds an
entry `(v, storedAt)` for `key` and it is not the case that `maxItemAge > 0` and
`now - storedAt > maxItemAge`; in every other case it returns `("", false)`.  With
`maxItemAge > 0` an entry stored at time 0 is found at every time `≤ maxItemAge`
and not found at every later time. -/
theorem get_found_iff (c : Cache) (now : Int) (key : String) :
    (∀ v, (c.Get now key).1 = (v, true) ↔
        ∃ ts, c.items.lookup key = some ⟨v, ts⟩ ∧
          ¬ (c.maxItemAge > 0 ∧ now - ts > c.maxItemAge)) ∧
      ((¬ ∃ v ts, c.items.lookup key = some ⟨v, ts⟩ ∧
          ¬ (c.maxItemAge > 0 ∧ now - ts > c.maxItemAge)) →
        (c.Get now key).1 = ("", false)) ∧
      (∀ v, c.maxItemAge > 0 → c.items.lookup key = some ⟨v, 0⟩ →
        (now ≤ c.maxItemAge → (c.Get now key).1 = (v, true)) ∧
        (now > c.maxItemAge → (c.Get now key).1 = ("", false))) := by
  refine ⟨?_, ?_, ?_⟩
  · intro v
    cases hl : c.items.lookup key with
    | none => simp [Get_absent now hl]
    | some item =>
      obtain ⟨v1, ts1⟩ := item
      by_cases hexp : c.maxItemAge > 0 ∧ now - ts1 > c.maxItemAge
      · rw [Get_expired hl hexp]
        constructor
        · intro h; simp at h
        · rintro ⟨ts, heq, hn⟩
          simp only [Option.some.injEq, CacheItem.mk.injEq] at heq
          rw [← heq.2] at hn
          exact absurd hexp hn
      · rw [Get_live hl hexp]
        constructor
        · intro h
          simp only [Prod.mk.injEq, and_true] at h
          exact ⟨ts1, by rw [h], hexp⟩
        · rintro ⟨ts, heq, _⟩
          simp only [Option.some.injEq, CacheItem.mk.injEq] at heq
          simp [heq.1]
  · intro hno
    cases hl : c.items.lookup key with
    | none => rw [Get_absent now hl]
    | some item =>
      obtain ⟨v1, ts1⟩ := item
      by_cases hexp : c.maxItemAge > 0 ∧ now - ts1 > c.maxItemAge
      · rw [Get_expired hl hexp]
      · exact absurd ⟨v1, ts1, hl, hexp⟩ hno
  · intro v hT hl
    constructor
    · intro hle
      have hnot : ¬ (c.maxItemAge > 0 ∧ now - (0 : Int) > c.maxItemAge) := by omega
      rw [Get_live hl hnot]
    · intro hgt
      have hyes : c.maxItemAge > 0 ∧ now - (0 : Int) > c.maxItemAge := by omega
      rw [Get_expired hl hyes]

/-- C4 at a concrete input: with a time-to-live of 10 the entry stored at time 0
is found at time 10 and not found at time 11. -/
theorem get_found_iff_witness :
    cacheTTL1.items.lookup "k" = some ⟨"old", 0⟩ ∧
      (cacheTTL1.Get 10 "k").1 = ("old", true) ∧
      (cacheTTL1.Get 11 "k").1 = ("", false) :=
  ⟨by decide,
    ((get_found_iff cacheTTL1 10 "k").2.2 "old" (by decide) (by decide)).1 (by decide),
    ((get_found_iff cacheTTL1 11 "k").2.2 "old" (by decide) (by decide)).2 (by decide)⟩

/-! ## Sweep -/

/-- The pairs left after deleting the keys `ks` one after the other. -/
theorem foldl_delete_entries (ks : List String) (m : Table) :
    (ks.foldl (fun acc k => acc.delete k) m).entries =
      m.entries.filter (fun e => decide (e.1 ∉ ks)) := by
  induction ks generalizing m with
  | nil => simp
  | cons k ks ih =>
    rw [List.foldl_cons, ih]
    show List.filter _ (dropKey k m.entries) = _
    rw [dropKey, List.filter_filter]
    apply List.filter_congr
    intro e _
    by_cases h1 : e.1 = k <;> by_cases h2 : e.1 ∈ ks <;> simp [h1, h2]

/-- The time-based loop written as the deletion of the keys of the expired pairs. -/
theorem evictExpired_eq_foldl (now maxItemAge : Int) (l : List (String × CacheItem)) (m : Table) :
    l.foldl (fun acc e => if now - e.2.timestamp > maxItemAge then acc.delete e.1 else acc) m =
      ((l.filter (fun e => decide (now - e.2.timestamp > maxItemAge))).map Prod.fst).foldl
        (fun acc k => acc.delete k) m := by
  induction l generalizing m with
  | nil => rfl
  | cons e l ih =>
    by_cases h : now - e.2.timestamp > maxItemAge
    · simp only [List.foldl_cons, if_pos h, ih, List.filter_cons, h, decide_True, if_true,
        List.map_cons]
    · simp only [List.foldl_cons, if_neg h, ih, List.filter_cons, h, decide_False]
      rfl

/-- The time-based loop keeps exactly the pairs whose age does not exceed
`maxItemAge`. -/
theorem evictExpired_entries (m : Table) (now maxItemAge : Int) :
    (evictExpired m now maxItemAge).entries =
      m.entries.filter (fun e => decide (now - e.2.timestamp ≤ maxItemAge)) := by
  unfold evictExpired
  rw [evictExpired_eq_foldl, foldl_delete_entries]
  apply List.filter_congr
  intro e he
  by_cases hexp : now - e.2.timestamp > maxItemAge
  · have hmem : e.1 ∈ (m.entries.filter
        (fun e => decide (now - e.2.timestamp > maxItemAge))).map Prod.fst :=
      List.mem_map.2 ⟨e, List.mem_filter.2 ⟨he, by simpa using hexp⟩, rfl⟩
    have hnle : ¬ now - e.2.timestamp ≤ maxItemAge := by omega
    simp [hmem, hnle]
  · have hle : now - e.2.timestamp ≤ maxItemAge := by omega
    have hnot : e.1 ∉ (m.entries.filter
        (fun e => decide (now - e.2.timestamp > maxItemAge))).map Prod.fst := by
      intro hmem
      obtain ⟨e1, he1, hk⟩ := List.mem_map.1 hmem
      have hin := (List.mem_filter.1 he1).1
      have hex := (List.mem_filter.1 he1).2
      have heq : e1 = e := List.inj_on_of_nodup_map m.nodup hin he hk
      rw [heq] at hex
      exact hexp (by simpa using hex)
    simp [hnot, hle]

/-- The time-based loop gives the same table whatever the order in which it
visits the pairs. -/
theorem evictExpired_any_order (m : Table) (now maxItemAge : Int)
    (l : List (String × CacheItem)) (h : l.Perm m.entries) :
    (l.foldl (fun acc e => if now - e.2.timestamp > maxItemAge then acc.delete e.1 else acc)
      m).entries = (evictExpired m now maxItemAge).entries := by
  unfold evictExpired
  rw [evictExpired_eq_foldl, evictExpired_eq_foldl, foldl_delete_entries, foldl_delete_entries]
  apply List.filter_congr
  intro e _
  have hiff := ((h.filter (fun e => decide (now - e.2.timestamp > maxItemAge))).map
    Prod.fst).mem_iff (a := e.1)
  simp only [hiff]

/-- The memory-based loop only deletes. -/
theorem evictHalf_entries (m : Table) (items : List keyAge) :
    (evictHalf m items).entries =
      m.entries.filter
        (fun e => decide (e.1 ∉ (items.take (items.length / 2)).map keyAge.key)) := by
  unfold evictHalf
  rw [← foldl_delete_entries, List.foldl_map]

/-- A sweep whose memory-based phase fires. -/
theorem cleanup_fires (c : Cache) (now : Int) {alloc : Nat} (order : List String)
    (hmem : memFires c.maxMemoryMB alloc = true) :
    c.cleanup now alloc order =
      { c with items := evictHalf (c.timePhase now) (rangeItems (c.timePhase now) order) } := by
  simp [Cache.cleanup, hmem]

/-- A sweep whose memory-based phase does not fire. -/
theorem cleanup_calm (c : Cache) (now : Int) {alloc : Nat} (order : List String)
    (hmem : memFires c.maxMemoryMB alloc = false) :
    c.cleanup now alloc order = { c with items := c.timePhase now } := by
  simp [Cache.cleanup, hmem]

/-- A sweep whose memory-based phase does not fire, on a cache without
time-to-live, changes nothing. -/
theorem cleanup_noop (c : Cache) (now : Int) (alloc : Nat) (order : List String)
    (hage : ¬ c.maxItemAge > 0) (hmem : memFires c.maxMemoryMB alloc = false) :
    c.cleanup now alloc order = c := by
  rw [cleanup_calm c now order hmem, Cache.timePhase, if_neg hage]

/-- Every pair in the table after the time-based phase was in the table before. -/
theorem timePhase_entries_subset (c : Cache) (now : Int) :
    ∀ e ∈ (c.timePhase now).entries, e ∈ c.items.entries := by
  intro e he
  unfold Cache.timePhase at he
  split_ifs at he
  · rw [evictExpired_entries] at he
    exact (List.mem_filter.1 he).1
  · exact he

/-- Every pair in the table after a sweep was in the table after its time-based
phase. -/
theorem cleanup_entries_subset_timePhase (c : Cache) (now : Int) (alloc : Nat)
    (order : List String) :
    ∀ e ∈ (c.cleanup now alloc order).items.entries, e ∈ (c.timePhase now).entries := by
  intro e he
  cases hmem : memFires c.maxMemoryMB alloc with
  | true =>
    rw [cleanup_fires c now order hmem] at he
    simp only [evictHalf_entries] at he
    exact (List.mem_filter.1 he).1
  | false =>
    rw [cleanup_calm c now order hmem] at he
    exact he

/-- Every pair in the table after a sweep was in the table before it. -/
theorem cleanup_entries_subset (c : Cache) (now : Int) (alloc : Nat) (order : List String) :
    ∀ e ∈ (c.cleanup now alloc order).items.entries, e ∈ c.items.entries :=
  fun e he => timePhase_entries_subset c now e (cleanup_entries_subset_timePhase c now alloc order e he)

/-- C7: with `maxItemAge > 0`, after a sweep at time `now` no entry with
`now - storedAt > maxItemAge` is left in the table, whatever the memory reading
and the iteration order; and when the memory-based phase does not fire the table
after the sweep is the table before restricted to the entries with
`now - storedAt ≤ maxItemAge`, values and timestamps unchanged. -/
theorem sweep_time_phase (c : Cache) (now : Int) (alloc : Nat) (order : List String)
    (hT : c.maxItemAge > 0) :
    (∀ e ∈ (c.cleanup now alloc order).items.entries,
        ¬ (now - e.2.timestamp > c.maxItemAge)) ∧
      (memFires c.maxMemoryMB alloc = false →
        (c.cleanup now alloc order).items.entries =
          c.items.entries.filter (fun e => decide (now - e.2.timestamp ≤ c.maxItemAge))) := by
  have htp : (c.timePhase now).entries =
      c.items.entries.filter (fun e => decide (now - e.2.timestamp ≤ c.maxItemAge)) := by
    rw [Cache.timePhase, if_pos hT, evictExpired_entries]
  constructor
  · intro e he
    have h1 := cleanup_entries_subset_timePhase c now alloc order e he
    rw [htp] at h1
    have h2 := (List.mem_filter.1 h1).2
    simp only [decide_eq_true_eq] at h2
    omega
  · intro hmem
    rw [cleanup_calm c now order hmem]
    exact htp

/-- C7 at a concrete input: time-to-live 10, entries stored at times 0 and 8, a
sweep at time 15 whose memory-based phase does not fire. -/
theorem sweep_time_phase_witness :
    cacheTTL2.items.entries = [("j", ⟨"young", 8⟩), ("k", ⟨"old", 0⟩)] ∧
      (∀ e ∈ (cacheTTL2.cleanup 15 0 ["j", "k"]).items.entries,
        ¬ (15 - e.2.timestamp > cacheTTL2.maxItemAge)) ∧
      (cacheTTL2.cleanup 15 0 ["j", "k"]).items.entries =
        cacheTTL2.items.entries.filter
          (fun e => decide (15 - e.2.timestamp ≤ cacheTTL2.maxItemAge)) :=
  ⟨by decide,
    (sweep_time_phase cacheTTL2 15 0 ["j", "k"] (by decide)).1,
    (sweep_time_phase cacheTTL2 15 0 ["j", "k"] (by decide)).2 (by decide)⟩

/-! ## Executions -/

/-- `Get` launches no goroutine when the time-to-live is disabled. -/
theorem Get_no_spawn (c : Cache) (now : Int) (key : String) (h : ¬ c.maxItemAge > 0) :
    (c.Get now key).2 = none := by
  unfold Cache.Get
  split
  · rfl
  · rw [if_neg (fun hc => h hc.1)]

/-- A calm step does nothing when the time-to-live is disabled. -/
theorem step_calm (s : State) (op : Op) (h : ¬ s.cache.maxItemAge > 0)
    (hop : calmStep s.cache.maxMemoryMB op = true) : step s op = s := by
  cases op with
  | put now key value => simp [calmStep] at hop
  | get now key => simp only [step, Get_no_spawn s.cache now key h]
  | lazyDelete i => simp [calmStep] at hop
  | sweep now alloc order =>
    have hmem : memFires s.cache.maxMemoryMB alloc = false := by simpa [calmStep] using hop
    simp only [step, cleanup_noop s.cache now alloc order h hmem]
  | stop => simp [calmStep] at hop

/-- A sequence of calm steps does nothing when the time-to-live is disabled. -/
theorem run_calm (s : State) (ops : List Op) (h : ¬ s.cache.maxItemAge > 0)
    (hops : ∀ op ∈ ops, calmStep s.cache.maxMemoryMB op = true) : run s ops = s := by
  induction ops with
  | nil => rfl
  | cons op ops ih =>
    have h1 : step s op = s := step_calm s op h (hops op (List.mem_cons_self op ops))
    show run (step s op) ops = s
    rw [h1]
    exact ih (fun o ho => hops o (List.mem_cons_of_mem op ho))

/-- C5: with `maxItemAge = 0`, after a successful `Put(key, value)` at time `t` and
any sequence of sweeps whose memory-based phase does not fire and of `Get`s, at
any times, the entry is still in the table with its value and timestamp, every
`Get` of the key returns `(value, true)`, no `Get` launches a deletion, and no
deletion was launched along the way. -/
theorem no_ttl_never_expires (c : Cache) (t : Int) (key value : String)
    (pending : List String) (ops : List Op)
    (hk : len key ≤ 256) (hv : len value ≤ 256) (h0 : c.maxItemAge = 0)
    (hops : ∀ op ∈ ops, calmStep c.maxMemoryMB op = true) :
    (run ⟨(c.Put t key value).1, pending⟩ ops).cache.items.lookup key = some ⟨value, t⟩ ∧
      (∀ now, ((run ⟨(c.Put t key value).1, pending⟩ ops).cache.Get now key).1 =
        (value, true)) ∧
      (∀ now k, ((run ⟨(c.Put t key value).1, pending⟩ ops).cache.Get now k).2 = none) ∧
      (run ⟨(c.Put t key value).1, pending⟩ ops).pending = pending := by
  have hput := Put_ok c t key value hk hv
  have hage : ¬ (c.Put t key value).1.maxItemAge > 0 := by rw [hput]; simp [h0]
  have hmb : (c.Put t key value).1.maxMemoryMB = c.maxMemoryMB := by rw [hput]
  have hrun : run ⟨(c.Put t key value).1, pending⟩ ops = ⟨(c.Put t key value).1, pending⟩ :=
    run_calm _ ops hage (by rw [hmb]; exact hops)
  have hl : (c.Put t key value).1.items.lookup key = some ⟨value, t⟩ := by
    rw [hput]; exact lookup_store_self c.items key ⟨value, t⟩
  rw [hrun]
  refine ⟨hl, ?_, ?_, rfl⟩
  · intro now
    rw [Get_live hl (fun hc => hage hc.1)]
  · intro now k
    exact Get_no_spawn _ now k hage

/-- C5 at a concrete input: memory limit 1 MB, no time-to-live, `Put("k", "v")` at
time 3, then the steps `calmOps`. -/
theorem no_ttl_never_expires_witness :
    (run ⟨(cacheMem.Put 3 "k" "v").1, []⟩ calmOps).cache.items.lookup "k" = some ⟨"v", 3⟩ ∧
      (∀ now, ((run ⟨(cacheMem.Put 3 "k" "v").1, []⟩ calmOps).cache.Get now "k").1 =
        ("v", true)) ∧
      (∀ now k, ((run ⟨(cacheMem.Put 3 "k" "v").1, []⟩ calmOps).cache.Get now k).2 = none) ∧
      (run ⟨(cacheMem.Put 3 "k" "v").1, []⟩ calmOps).pending = [] :=
  no_ttl_never_expires cacheMem 3 "k" "v" [] calmOps (by decide) (by decide) (by decide)
    (by decide)

/-- The keys and values in the table are at most 256 bytes long. -/
theorem sized_step (s : State) (op : Op)
    (h : ∀ e ∈ s.cache.items.entries, len e.1 ≤ 256 ∧ len e.2.value ≤ 256) :
    ∀ e ∈ (step s op).cache.items.entries, len e.1 ≤ 256 ∧ len e.2.value ≤ 256 := by
  cases op with
  | put now key value =>
    by_cases hbig : len key > 256 ∨ len value > 256
    · simpa only [step, Put_err s.cache now key value hbig] using h
    · have hk : len key ≤ 256 := by omega
      have hv : len value ≤ 256 := by omega
      simp only [step, Put_ok s.cache now key value hk hv]
      intro e he
      rcases List.mem_cons.1 he with heq | hmem
      · rw [heq]; exact ⟨hk, hv⟩
      · exact h e (List.mem_filter.1 hmem).1
  | get now key =>
    simp only [step]
    split <;> exact h
  | lazyDelete i =>
    simp only [step]
    split
    · exact h
    · intro e he
      exact h e (List.mem_filter.1 he).1
  | sweep now alloc order =>
    intro e he
    exact h e (cleanup_entries_subset s.cache now alloc order e he)
  | stop =>
    simp only [step, Cache.Stop]
    split <;> exact h

/-- C6: in every state reached from `NewCache` by any sequence of `Put`, `Get`,
lazy-expiry deletion, sweep and `Stop` steps, every key in the table and every
stored value has a byte length of at most 256. -/
theorem size_invariant (config : CacheConfig) (c0 : Cache) (h : NewCache config = some c0)
    (ops : List Op) :
    ∀ e ∈ (run (initial c0) ops).cache.items.entries,
      len e.1 ≤ 256 ∧ len e.2.value ≤ 256 := by
  have hgen : ∀ (ops : List Op) (s : State),
      (∀ e ∈ s.cache.items.entries, len e.1 ≤ 256 ∧ len e.2.value ≤ 256) →
      ∀ e ∈ (run s ops).cache.items.entries, len e.1 ≤ 256 ∧ len e.2.value ≤ 256 := by
    intro ops
    induction ops with
    | nil => intro s hs; exact hs
    | cons op ops ih => intro s hs; exact ih (step s op) (sized_step s op hs)
  apply hgen
  intro e he
  rw [initial, NewCache_items h] at he
  cases he

set_option maxRecDepth 8000 in
/-- C6 at a concrete input: the steps `sampleOps` from `NewCache cfgTTL`. -/
theorem size_invariant_witness :
    NewCache cfgTTL = some cacheTTL ∧
      (run (initial cacheTTL) sampleOps).cache.items.entries = [("j", ⟨"young", 14⟩)] ∧
      ∀ e ∈ (run (initial cacheTTL) sampleOps).cache.items.entries,
        len e.1 ≤ 256 ∧ len e.2.value ≤ 256 :=
  ⟨by decide, by decide, size_invariant cfgTTL cacheTTL (by decide) sampleOps⟩

/-! ## Memory-based eviction -/

/-- Without wrap-around (`maxMemoryMB < 2 ^ 44`) the guard of the memory-based
phase compares the allocation with `maxMemoryMB × 1024 × 1024`. -/
theorem memFires_iff_of_lt (maxMemoryMB : Int) (alloc : Nat)
    (h1 : maxMemoryMB < 17592186044416) :
    memFires maxMemoryMB alloc = true ↔
      (maxMemoryMB > 0 ∧ (alloc : Int) > maxMemoryMB * 1024 * 1024) := by
  by_cases h0 : maxMemoryMB > 0
  · obtain ⟨n, rfl⟩ := Int.eq_ofNat_of_zero_le (le_of_lt h0)
    have hn : n < 17592186044416 := by omega
    have hu : uint64 (n : Int) = n := by
      unfold uint64
      omega
    simp only [memFires, memThreshold, hu, mulU64, Bool.and_eq_true, decide_eq_true_eq]
    omega
  · simp [memFires, h0]

/-- A key of the table has an entry. -/
theorem lookup_of_mem_keys (m : Table) {k : String} (h : k ∈ m.keys) :
    ∃ item, m.lookup k = some item := by
  unfold Table.keys at h
  unfold Table.lookup
  generalize m.entries = l at h
  induction l with
  | nil => cases h
  | cons e l ih =>
    obtain ⟨k1, v1⟩ := e
    by_cases hk : k = k1
    · exact ⟨v1, by simp [List.lookup_cons, hk]⟩
    · have hne : (k == k1) = false := by simpa using hk
      have hmem : k ∈ l.map Prod.fst := by
        rcases List.mem_cons.1 h with h2 | h2
        · exact absurd h2 hk
        · exact h2
      obtain ⟨item, hitem⟩ := ih hmem
      exact ⟨item, by simp [List.lookup_cons, hne, hitem]⟩

/-- The slice built by the `range` loop lists the keys in the order of the loop. -/
theorem rangeItems_keys (m : Table) (order : List String) (h : ∀ k ∈ order, k ∈ m.keys) :
    (rangeItems m order).map keyAge.key = order := by
  unfold rangeItems
  induction order with
  | nil => rfl
  | cons k ks ih =>
    obtain ⟨item, hitem⟩ := lookup_of_mem_keys m (h k (List.mem_cons_self k ks))
    rw [List.filterMap_cons, hitem]
    simp only [Option.map_some', List.map_cons]
    rw [ih (fun x hx => h x (List.mem_cons_of_mem k hx))]

/-- When the memory-based phase runs on a table of `n` entries it deletes
`n / 2` of them, whatever the order of the `range` loop, and leaves the others
as they are. -/
theorem evictHalf_size (m : Table) (order : List String) (hperm : order.Perm m.keys) :
    (evictHalf m (rangeItems m order)).size = m.size - m.size / 2 ∧
      (evictHalf m (rangeItems m order)).entries.Sublist m.entries := by
  have hkeys := rangeItems_keys m order (fun k hk => hperm.subset hk)
  have hlen : (rangeItems m order).length = m.size := by
    rw [← List.length_map (rangeItems m order) keyAge.key, hkeys, hperm.length_eq]
    simp [Table.keys, Table.size]
  have hnd : order.Nodup := hperm.nodup_iff.2 m.nodup
  constructor
  · rw [Table.size, evictHalf_entries, List.map_take, hkeys, hlen]
    have h1 : (m.entries.filter (fun e => decide (e.1 ∉ order.take (m.size / 2)))).length =
        (m.keys.filter (fun k => decide (k ∉ order.take (m.size / 2)))).length := by
      rw [Table.keys, List.filter_map, List.length_map]
      rfl
    rw [h1, (hperm.symm.filter _).length_eq]
    have h2 : order.filter (fun k => decide (k ∉ order.take (m.size / 2))) =
        order.drop (m.size / 2) := by
      conv_lhs => rw [← List.take_append_drop (m.size / 2) order]
      rw [← List.take_append_drop (m.size / 2) order] at hnd
      have hdisj := List.disjoint_of_nodup_append hnd
      rw [List.filter_append]
      have ha : (order.take (m.size / 2)).filter
          (fun k => decide (k ∉ List.take (m.size / 2)
            (List.take (m.size / 2) order ++ List.drop (m.size / 2) order))) = [] := by
        rw [List.take_append_drop]
        apply List.filter_eq_nil_iff.2
        intro k hk
        simpa using hk
      have hb : (order.drop (m.size / 2)).filter
          (fun k => decide (k ∉ List.take (m.size / 2)
            (List.take (m.size / 2) order ++ List.drop (m.size / 2) order))) =
          order.drop (m.size / 2) := by
        rw [List.take_append_drop]
        apply List.filter_eq_self.2
        intro k hk
        have : k ∉ order.take (m.size / 2) := fun hk2 => hdisj hk2 hk
        simpa using this
      rw [ha, hb, List.nil_append]
    rw [h2, List.length_drop, hperm.length_eq]
    simp [Table.keys, Table.size]
  · rw [evictHalf_entries]
    exact List.filter_sublist _

/-- C8 on the code: memory limit 1 MB, `"a"` stored at time 1 and `"b"` at time 2,
a sweep with 2 MB allocated whose `range` loop yields `"b"` first.  The phase
fires and deletes `"b"`, the younger entry; `"a"`, the older one, survives. -/
theorem evict_half_removes_younger :
    cacheMem2.items.lookup "a" = some ⟨"1", 1⟩ ∧
      cacheMem2.items.lookup "b" = some ⟨"2", 2⟩ ∧
      memFires cacheMem2.maxMemoryMB 2097152 = true ∧
      (cacheMem2.cleanup 5 2097152 ["b", "a"]).items.lookup "b" = none ∧
      (cacheMem2.cleanup 5 2097152 ["b", "a"]).items.lookup "a" = some ⟨"1", 1⟩ := by
  decide

/-- C9 on the code: with `maxMemoryMB = 2 ^ 44` the product
`uint64(maxMemoryMB)*1024*1024` wraps to 0, so with 1 byte allocated, which is not
above `maxMemoryMB × 1024 × 1024`, the phase fires and deletes one of the two
entries. -/
theorem mem_threshold_wraps :
    cacheHuge2.maxMemoryMB = 17592186044416 ∧
      memThreshold cacheHuge2.maxMemoryMB = 0 ∧
      ¬ ((1 : Int) > cacheHuge2.maxMemoryMB * 1024 * 1024) ∧
      memFires cacheHuge2.maxMemoryMB 1 = true ∧
      cacheHuge2.items.entries = [("b", ⟨"2", 2⟩), ("a", ⟨"1", 1⟩)] ∧
      (cacheHuge2.cleanup 5 1 ["a", "b"]).items.entries = [("b", ⟨"2", 2⟩)] := by
  decide

/-! ## Frame of Put -/

/-- A sequence of `Put`s within the size bound leaves the keys it does not name
as they were. -/
theorem putAll_lookup_other (puts : List (Int × String × String)) (c : Cache) (k : String)
    (hsz : ∀ p ∈ puts, len p.2.1 ≤ 256 ∧ len p.2.2 ≤ 256)
    (hk : k ∉ puts.map (fun p => p.2.1)) :
    (putAll c puts).items.lookup k = c.items.lookup k := by
  induction puts generalizing c with
  | nil => rfl
  | cons p puts ih =>
    obtain ⟨now, key, value⟩ := p
    have hp := hsz (now, key, value) (List.mem_cons_self _ _)
    have hne : k ≠ key := fun h => hk (by simp [h])
    have hrest : k ∉ puts.map (fun p => p.2.1) := fun h => hk (List.mem_cons_of_mem _ h)
    show (putAll (c.Put now key value).1 puts).items.lookup k = _
    rw [ih _ (fun q hq => hsz q (List.mem_cons_of_mem _ hq)) hrest,
      Put_ok c now key value hp.1 hp.2]
    exact lookup_store_ne c.items hne _

/-- C10: a successful `Put(key, value)` at time `t` leaves every other key with
the same presence, value and timestamp, and makes the entry of `key` equal to
`(value, t)`; after a sequence of successful `Put`s to pairwise distinct keys every
one of those keys holds its own value (and the time of its `Put`). -/
theorem put_frame (c : Cache) (t : Int) (key value : String)
    (puts : List (Int × String × String))
    (hk : len key ≤ 256) (hv : len value ≤ 256)
    (hsz : ∀ p ∈ puts, len p.2.1 ≤ 256 ∧ len p.2.2 ≤ 256)
    (hnd : (puts.map (fun p => p.2.1)).Nodup) :
    (∀ k1, k1 ≠ key → (c.Put t key value).1.items.lookup k1 = c.items.lookup k1) ∧
      (c.Put t key value).1.items.lookup key = some ⟨value, t⟩ ∧
      (∀ p ∈ puts, (putAll c puts).items.lookup p.2.1 = some ⟨p.2.2, p.1⟩) := by
  refine ⟨?_, ?_, ?_⟩
  · intro k1 hne
    rw [Put_ok c t key value hk hv]
    exact lookup_store_ne c.items hne _
  · rw [Put_ok c t key value hk hv]
    exact lookup_store_self c.items key _
  · induction puts generalizing c with
    | nil => intro p hp; cases hp
    | cons q puts ih =>
      obtain ⟨now, k, v⟩ := q
      have hq := hsz (now, k, v) (List.mem_cons_self _ _)
      have hrestsz : ∀ p ∈ puts, len p.2.1 ≤ 256 ∧ len p.2.2 ≤ 256 :=
        fun p hp => hsz p (List.mem_cons_of_mem _ hp)
      rw [List.map_cons, List.nodup_cons] at hnd
      intro p hp
      rcases List.mem_cons.1 hp with heq | hmem
      · rw [heq]
        show (putAll (c.Put now k v).1 puts).items.lookup k = _
        rw [putAll_lookup_other puts _ k hrestsz hnd.1, Put_ok c now k v hq.1 hq.2]
        exact lookup_store_self c.items k _
      · exact ih (c.Put now k v).1 hrestsz hnd.2 p hmem

/-- C10 at a concrete input: a `Put` of `"j"` on a cache holding `"k"`, and the
three `Put`s `samplePuts` on an empty cache. -/
theorem put_frame_witness :
    (cacheTTL1.Put 8 "j" "young").1.items.lookup "k" = cacheTTL1.items.lookup "k" ∧
      (cacheTTL1.Put 8 "j" "young").1.items.lookup "j" = some ⟨"young", 8⟩ ∧
      (putAll cachePlain samplePuts).items.lookup "a" = some ⟨"1", 1⟩ ∧
      (putAll cachePlain samplePuts).items.lookup "b" = some ⟨"2", 2⟩ ∧
      (putAll cachePlain samplePuts).items.lookup "c" = some ⟨"3", 3⟩ :=
  ⟨(put_frame cacheTTL1 8 "j" "young" [] (by decide) (by decide) (by decide) (by decide)).1
      "k" (by decide),
    (put_frame cacheTTL1 8 "j" "young" [] (by decide) (by decide) (by decide) (by decide)).2.1,
    (put_frame cachePlain 0 "" "" samplePuts (by decide) (by decide) (by decide)
      (by decide)).2.2 (1, "a", "1") (by decide),
    (put_frame cachePlain 0 "" "" samplePuts (by decide) (by decide) (by decide)
      (by decide)).2.2 (2, "b", "2") (by decide),
    (put_frame cachePlain 0 "" "" samplePuts (by decide) (by decide) (by decide)
      (by decide)).2.2 (3, "c", "3") (by decide)⟩

/-! ## Stop -/

/-- `Stop` changes nothing but the ticker. -/
theorem Stop_fields (c : Cache) :
    c.Stop.items = c.items ∧ c.Stop.maxMemoryMB = c.maxMemoryMB ∧
      c.Stop.maxItemAge = c.maxItemAge := by
  unfold Cache.Stop
  split <;> exact ⟨rfl, rfl, rfl⟩

/-- C11: for every cache, with a ticker or without one, `Stop` returns, leaves the
table (and the configuration) as it was, and `Stop` after `Stop` gives the same
cache as one `Stop`; a `Put` or a `Get` after `Stop` returns what it returns
without the `Stop` and has the same effect on the table. -/
theorem stop_idempotent (c : Cache) (now : Int) (key value : String) :
    c.Stop.items = c.items ∧
      c.Stop.Stop = c.Stop ∧
      (c.Stop.Put now key value).2 = (c.Put now key value).2 ∧
      (c.Stop.Put now key value).1.items = (c.Put now key value).1.items ∧
      (c.Stop.Put now key value).1 = (c.Put now key value).1.Stop ∧
      c.Stop.Get now key = c.Get now key ∧
      (step ⟨c.Stop, []⟩ (.get now key)).cache.items = (step ⟨c, []⟩ (.get now key)).cache.items := by
  obtain ⟨items, mb, age, ticker⟩ := c
  cases ticker with
  | none =>
    refine ⟨rfl, rfl, rfl, rfl, ?_, rfl, rfl⟩
    show (Cache.Put ⟨items, mb, age, none⟩ now key value).1 = _
    unfold Cache.Put
    split_ifs <;> rfl
  | some t =>
    refine ⟨rfl, rfl, ?_, ?_, ?_, rfl, ?_⟩
    · unfold Cache.Put
      split_ifs <;> rfl
    · unfold Cache.Put
      split_ifs <;> rfl
    · unfold Cache.Put
      split_ifs <;> rfl
    · have hget : (Cache.mk items mb age (some t)).Stop.Get now key =
          (Cache.mk items mb age (some t)).Get now key := rfl
      simp only [step, hget]
      split <;> rfl

/-! ## HTTP handlers -/

/-- C12: a request body that binds to `(key, value)` with both at most 256 bytes
long is answered 200, status `"OK"`, with the message `"Key inserted successfully"`
when the key was not in the table and `"Key updated successfully"` when it was;
with a key or value over 256 bytes it is answered 400, status `"ERROR"`, with the
error text of `Cache.Put`, and the cache is unchanged; a body that does not bind
is answered 400, status `"ERROR"`. -/
theorem put_handler_response (h : Handler) (now : Int) (key value : String) :
    (len key ≤ 256 ∧ len value ≤ 256 → h.cache.items.lookup key = none →
        (h.Put now (some ⟨key, value⟩)).2 =
          (200, ⟨"OK", "Key inserted successfully", "", ""⟩)) ∧
      (len key ≤ 256 ∧ len value ≤ 256 → (∃ item, h.cache.items.lookup key = some item) →
        (h.Put now (some ⟨key, value⟩)).2 =
          (200, ⟨"OK", "Key updated successfully", "", ""⟩)) ∧
      (len key ≤ 256 ∧ len value ≤ 256 →
        (h.Put now (some ⟨key, value⟩)).1.cache = (h.cache.Put now key value).1) ∧
      (¬ (len key ≤ 256 ∧ len value ≤ 256) →
        (h.Put now (some ⟨key, value⟩)).2 =
            (400, ⟨"ERROR", "key or value exceeds 256 characters", "", ""⟩) ∧
          (h.Put now (some ⟨key, value⟩)).1 = h) ∧
      (h.Put now none).2.1 = 400 ∧ (h.Put now none).2.2.Status = "ERROR" ∧
      (h.Put now none).1 = h := by
  refine ⟨?_, ?_, ?_, ?_, rfl, rfl, rfl⟩
  · intro hsz hnone
    simp only [Handler.Put, Put_ok h.cache now key value hsz.1 hsz.2, hnone]
    rfl
  · rintro hsz ⟨item, hitem⟩
    simp only [Handler.Put, Put_ok h.cache now key value hsz.1 hsz.2, hitem]
    rfl
  · intro hsz
    simp only [Handler.Put, Put_ok h.cache now key value hsz.1 hsz.2]
  · intro hbig
    have hbig2 : len key > 256 ∨ len value > 256 := by omega
    simp [Handler.Put, Put_err h.cache now key value hbig2, putError]

/-- C12 at concrete inputs: an insert, an update and a value of 257 bytes on the
cache holding `"k"`. -/
theorem put_handler_response_witness :
    (Handler.Put ⟨cacheTTL1⟩ 5 (some ⟨"j", "v"⟩)).2 =
        (200, ⟨"OK", "Key inserted successfully", "", ""⟩) ∧
      (Handler.Put ⟨cacheTTL1⟩ 5 (some ⟨"k", "v"⟩)).2 =
        (200, ⟨"OK", "Key updated successfully", "", ""⟩) ∧
      (Handler.Put ⟨cacheTTL1⟩ 5 (some ⟨"k", bytes 257⟩)).2 =
        (400, ⟨"ERROR", "key or value exceeds 256 characters", "", ""⟩) ∧
      (Handler.Put ⟨cacheTTL1⟩ 5 (some ⟨"k", bytes 257⟩)).1 = ⟨cacheTTL1⟩ :=
  ⟨(put_handler_response ⟨cacheTTL1⟩ 5 "j" "v").1 (by decide) (by decide),
    (put_handler_response ⟨cacheTTL1⟩ 5 "k" "v").2.1 (by decide) ⟨⟨"old", 0⟩, by decide⟩,
    (put_handler_response ⟨cacheTTL1⟩ 5 "k" (bytes 257)).2.2.2.1
      (by rw [len_bytes]; decide)⟩

/-- C13: the GET handler answers 400, status `"ERROR"`, to an empty (or missing)
key whatever the cache holds and without a call of `Cache.Get`; 404, status
`"ERROR"`, message `"Key not found."`, to a non-empty key that `Cache.Get` does not
find (absent or expired); and 200, status `"OK"`, with the key and the stored value
to a non-empty key that `Cache.Get` finds. -/
theorem get_handler_response (h : Handler) (now : Int) (key : String) :
    (∀ h1 : Handler, h1.Get now "" =
        ((400, ⟨"ERROR", "Key parameter is required", "", ""⟩), none)) ∧
      (key ≠ "" → (h.cache.Get now key).1.2 = false →
        (h.Get now key).1 = (404, ⟨"ERROR", "Key not found.", "", ""⟩)) ∧
      (key ≠ "" → ∀ value, (h.cache.Get now key).1 = (value, true) →
        (h.Get now key).1 = (200, ⟨"OK", "", key, value⟩)) ∧
      (key ≠ "" → (h.Get now key).2 = (h.cache.Get now key).2) := by
  refine ⟨fun h1 => rfl, ?_, ?_, ?_⟩
  · intro hne hnot
    unfold Handler.Get
    rw [if_neg hne]
    rcases hg : h.cache.Get now key with ⟨⟨v, b⟩, g⟩
    rw [hg] at hnot
    simp only at hnot
    subst hnot
    rfl
  · intro hne value hfound
    unfold Handler.Get
    rw [if_neg hne]
    rcases hg : h.cache.Get now key with ⟨⟨v, b⟩, g⟩
    rw [hg] at hfound
    simp only [Prod.mk.injEq] at hfound
    obtain ⟨hv, hb⟩ := hfound
    subst hv hb
    rfl
  · intro hne
    unfold Handler.Get
    rw [if_neg hne]
    rcases hg : h.cache.Get now key with ⟨⟨v, b⟩, g⟩
    cases b <;> rfl

/-- C13 at concrete inputs, time-to-live 10 and `"k"` stored at time 0: found at
time 5, expired at time 20, and the key `"j"` is absent. -/
theorem get_handler_response_witness :
    (Handler.Get ⟨cacheTTL1⟩ 5 "k").1 = (200, ⟨"OK", "", "k", "old"⟩) ∧
      (Handler.Get ⟨cacheTTL1⟩ 20 "k").1 = (404, ⟨"ERROR", "Key not found.", "", ""⟩) ∧
      (Handler.Get ⟨cacheTTL1⟩ 5 "j").1 = (404, ⟨"ERROR", "Key not found.", "", ""⟩) :=
  ⟨(get_handler_response ⟨cacheTTL1⟩ 5 "k").2.2.1 (by decide) "old" (by decide),
    (get_handler_response ⟨cacheTTL1⟩ 20 "k").2.1 (by decide) (by decide),
    (get_handler_response ⟨cacheTTL1⟩ 5 "j").2.1 (by decide) (by decide)⟩

/-! ## Puts in any order -/

/-- A sequence of `Put`s keeps the configuration. -/
theorem putAll_maxItemAge (puts : List (Int × String × String)) (c : Cache) :
    (putAll c puts).maxItemAge = c.maxItemAge := by
  induction puts generalizing c with
  | nil => rfl
  | cons p puts ih =>
    obtain ⟨now, key, value⟩ := p
    show (putAll (c.Put now key value).1 puts).maxItemAge = _
    rw [ih]
    unfold Cache.Put
    split_ifs <;> rfl

/-- Every `Put` of a sequence of `Put`s within the size bound returns a nil error. -/
theorem putResults_ok (puts : List (Int × String × String)) (c : Cache)
    (hsz : ∀ p ∈ puts, len p.2.1 ≤ 256 ∧ len p.2.2 ≤ 256) :
    ∀ r ∈ putResults c puts, r.2 = none := by
  induction puts generalizing c with
  | nil => intro r hr; cases hr
  | cons p puts ih =>
    obtain ⟨now, key, value⟩ := p
    have hp := hsz (now, key, value) (List.mem_cons_self _ _)
    intro r hr
    rcases List.mem_cons.1 hr with heq | hmem
    · rw [heq, Put_ok c now key value hp.1 hp.2]
    · exact ih _ (fun q hq => hsz q (List.mem_cons_of_mem _ hq)) r hmem

/-- After a sequence of `Put`s within the size bound to pairwise distinct keys,
each key holds the value and the time of its `Put`. -/
theorem putAll_lookup_mem (puts : List (Int × String × String)) (c : Cache)
    (hsz : ∀ p ∈ puts, len p.2.1 ≤ 256 ∧ len p.2.2 ≤ 256)
    (hnd : (puts.map (fun p => p.2.1)).Nodup) :
    ∀ p ∈ puts, (putAll c puts).items.lookup p.2.1 = some ⟨p.2.2, p.1⟩ := by
  induction puts generalizing c with
  | nil => intro p hp; cases hp
  | cons q puts ih =>
    obtain ⟨now, k, v⟩ := q
    have hq := hsz (now, k, v) (List.mem_cons_self _ _)
    have hrestsz : ∀ p ∈ puts, len p.2.1 ≤ 256 ∧ len p.2.2 ≤ 256 :=
      fun p hp => hsz p (List.mem_cons_of_mem _ hp)
    rw [List.map_cons, List.nodup_cons] at hnd
    intro p hp
    rcases List.mem_cons.1 hp with heq | hmem
    · rw [heq]
      show (putAll (c.Put now k v).1 puts).items.lookup k = _
      rw [putAll_lookup_other puts _ k hrestsz hnd.1, Put_ok c now k v hq.1 hq.2]
      exact lookup_store_self c.items k _
    · exact ih (c.Put now k v).1 hrestsz hnd.2 p hmem

/-- C14: `Put` holds the write lock while it touches the table, so concurrent
`Put`s take effect one after the other in some order.  For every set of `Put`s to
pairwise distinct keys, keys and values at most 256 bytes long, and every order
`order` in which they take effect: every `Put` returns a nil error, afterwards
the table holds for each key the value put for it, and a `Get` of each key (made
before the entry's age exceeds `maxItemAge`) returns that value. -/
theorem concurrent_puts (c : Cache) (puts order : List (Int × String × String)) (now : Int)
    (hsz : ∀ p ∈ puts, len p.2.1 ≤ 256 ∧ len p.2.2 ≤ 256)
    (hnd : (puts.map (fun p => p.2.1)).Nodup)
    (hperm : order.Perm puts)
    (hage : c.maxItemAge ≤ 0 ∨ ∀ p ∈ puts, now - p.1 ≤ c.maxItemAge) :
    (∀ r ∈ putResults c order, r.2 = none) ∧
      (∀ p ∈ puts, (putAll c order).items.lookup p.2.1 = some ⟨p.2.2, p.1⟩) ∧
      (∀ p ∈ puts, ((putAll c order).Get now p.2.1).1 = (p.2.2, true)) := by
  have hsz1 : ∀ p ∈ order, len p.2.1 ≤ 256 ∧ len p.2.2 ≤ 256 :=
    fun p hp => hsz p (hperm.subset hp)
  have hnd1 : (order.map (fun p => p.2.1)).Nodup :=
    (hperm.map (fun p => p.2.1)).nodup_iff.2 hnd
  have hl : ∀ p ∈ puts, (putAll c order).items.lookup p.2.1 = some ⟨p.2.2, p.1⟩ :=
    fun p hp => putAll_lookup_mem order c hsz1 hnd1 p (hperm.symm.subset hp)
  refine ⟨putResults_ok order c hsz1, hl, ?_⟩
  intro p hp
  have hlive : ¬ ((putAll c order).maxItemAge > 0 ∧
      now - (CacheItem.mk p.2.2 p.1).timestamp > (putAll c order).maxItemAge) := by
    rw [putAll_maxItemAge]
    rcases hage with h0 | hall
    · omega
    · have := hall p hp
      show ¬ (c.maxItemAge > 0 ∧ now - p.1 > c.maxItemAge)
      omega
  rw [Get_live (hl p hp) hlive]

/-- C14 at a concrete input: the three `Put`s `samplePuts` taking effect in the
order `samplePutsShuffled` on a cache with a time-to-live of 10, read at time 9. -/
theorem concurrent_puts_witness :
    (∀ r ∈ putResults cacheTTL samplePutsShuffled, r.2 = none) ∧
      (∀ p ∈ samplePuts,
        (putAll cacheTTL samplePutsShuffled).items.lookup p.2.1 = some ⟨p.2.2, p.1⟩) ∧
      (∀ p ∈ samplePuts,
        ((putAll cacheTTL samplePutsShuffled).Get 9 p.2.1).1 = (p.2.2, true)) :=
  concurrent_puts cacheTTL samplePuts samplePutsShuffled 9 (by decide) (by decide)
    (by decide) (Or.inr (by decide))

/-! ## Lazy expiry -/

/-- C15 on the code: time-to-live 10; `"k"` is stored at time 0, a `Get` at time
20 finds it expired and launches the deletion of `"k"`, and a `Put` stores `"k"`
again at time 21.  The entry is then live (a `Get` at time 22 finds it), and the
pending deletion, when it runs, removes it. -/
theorem lazy_delete_removes_live :
    (run (initial cacheTTL) raceOps).pending = ["k"] ∧
      (run (initial cacheTTL) raceOps).cache.items.lookup "k" = some ⟨"new", 21⟩ ∧
      ((run (initial cacheTTL) raceOps).cache.Get 22 "k").1 = ("new", true) ∧
      (step (run (initial cacheTTL) raceOps) (.lazyDelete 0)).cache.items.lookup "k" = none ∧
      ((step (run (initial cacheTTL) raceOps) (.lazyDelete 0)).cache.Get 22 "k").1 =
        ("", false) := by
  decide

/-- C16: a `Get` leaves the cache as it was (an expired entry is still in the
table when the call returns); it launches a deletion if and only if the key is
present, `maxItemAge > 0` and `now - storedAt > maxItemAge`; the deletion it
launches is the deletion of the requested key, which, when it runs, removes that
key and leaves every other key as it is. -/
theorem get_no_mutation (s : State) (now : Int) (key : String) :
    (step s (.get now key)).cache = s.cache ∧
      ((s.cache.Get now key).2 ≠ none ↔
        ∃ item, s.cache.items.lookup key = some item ∧
          s.cache.maxItemAge > 0 ∧ now - item.timestamp > s.cache.maxItemAge) ∧
      ((s.cache.Get now key).2 ≠ none →
        (s.cache.Get now key).2 = some key ∧
          (step s (.get now key)).pending = s.pending ++ [key]) ∧
      ((s.cache.Get now key).2 = none → (step s (.get now key)).pending = s.pending) ∧
      (s.cache.lazyDelete key).items.lookup key = none ∧
      (∀ k1, k1 ≠ key → (s.cache.lazyDelete key).items.lookup k1 = s.cache.items.lookup k1) := by
  refine ⟨?_, ?_, ?_, ?_, lookup_delete_self _ key, fun k1 h => lookup_delete_ne _ h⟩
  · simp only [step]
    split <;> rfl
  · cases hl : s.cache.items.lookup key with
    | none => simp [Get_absent now hl]
    | some item =>
      by_cases hexp : s.cache.maxItemAge > 0 ∧ now - item.timestamp > s.cache.maxItemAge
      · rw [Get_expired hl hexp]
        simp only [ne_eq, reduceCtorEq, not_false_eq_true, Option.some.injEq, true_iff]
        exact ⟨item, rfl, hexp⟩
      · rw [Get_live hl hexp]
        simp only [ne_eq, not_true_eq_false, Option.some.injEq, false_iff]
        rintro ⟨item1, h1, h2⟩
        rw [← h1] at h2
        exact hexp h2
  · intro hne
    cases hl : s.cache.items.lookup key with
    | none => rw [Get_absent now hl] at hne; exact absurd rfl hne
    | some item =>
      by_cases hexp : s.cache.maxItemAge > 0 ∧ now - item.timestamp > s.cache.maxItemAge
      · refine ⟨by rw [Get_expired hl hexp], ?_⟩
        simp only [step, Get_expired hl hexp]
      · rw [Get_live hl hexp] at hne; exact absurd rfl hne
  · intro hnone
    simp only [step, hnone]

/-- C16 at a concrete input: time-to-live 10, `"k"` stored at time 0, a `Get` at
time 20 with no goroutine pending. -/
theorem get_no_mutation_witness :
    (step ⟨cacheTTL1, []⟩ (.get 20 "k")).cache = cacheTTL1 ∧
      (cacheTTL1.Get 20 "k").2 = some "k" ∧
      (step ⟨cacheTTL1, []⟩ (.get 20 "k")).pending = ["k"] ∧
      (step ⟨cacheTTL1, []⟩ (.get 5 "k")).pending = [] :=
  ⟨(get_no_mutation ⟨cacheTTL1, []⟩ 20 "k").1,
    ((get_no_mutation ⟨cacheTTL1, []⟩ 20 "k").2.2.1 (by decide)).1,
    ((get_no_mutation ⟨cacheTTL1, []⟩ 20 "k").2.2.1 (by decide)).2,
    (get_no_mutation ⟨cacheTTL1, []⟩ 5 "k").2.2.2.1 (by decide)⟩

/-! ## Re-Put, long keys, and the existed flag -/

/-- The entry a lookup returns is a pair of the table. -/
theorem mem_of_lookup (m : Table) {k : String} {item : CacheItem}
    (h : m.lookup k = some item) : (k, item) ∈ m.entries := by
  unfold Table.lookup at h
  generalize m.entries = l at h
  induction l with
  | nil => cases h
  | cons e l ih =>
    obtain ⟨k1, v1⟩ := e
    by_cases hk : k = k1
    · subst hk
      simp only [List.lookup_cons, beq_self_eq_true, Option.some.injEq] at h
      rw [h]
      exact List.mem_cons_self _ _
    · have hne : (k == k1) = false := by simpa using hk
      simp only [List.lookup_cons, hne] at h
      exact List.mem_cons_of_mem _ (ih h)

/-- A pair of the table is what the lookup of its key returns. -/
theorem lookup_of_mem (m : Table) {k : String} {item : CacheItem}
    (h : (k, item) ∈ m.entries) : m.lookup k = some item := by
  obtain ⟨item1, h1⟩ := lookup_of_mem_keys m (List.mem_map.2 ⟨(k, item), h, rfl⟩)
  have h2 := mem_of_lookup m h1
  have heq : (k, item1) = (k, item) := List.inj_on_of_nodup_map m.nodup h2 h rfl
  rw [h1]
  simp only [Prod.mk.injEq, true_and] at heq
  rw [heq]

/-- The time-based phase of a sweep keeps an entry that is not older than
`maxItemAge`. -/
theorem timePhase_lookup_live (c : Cache) (now : Int) {k : String} {item : CacheItem}
    (h : c.items.lookup k = some item) (hlive : now - item.timestamp ≤ c.maxItemAge) :
    (c.timePhase now).lookup k = some item := by
  unfold Cache.timePhase
  split_ifs
  · apply lookup_of_mem
    rw [evictExpired_entries]
    exact List.mem_filter.2 ⟨mem_of_lookup c.items h, by simpa using hlive⟩
  · exact h

/-- The size bound holds in every state of an execution that starts in a state
where it holds. -/
theorem sized_run (ops : List Op) (s : State)
    (h : ∀ e ∈ s.cache.items.entries, len e.1 ≤ 256 ∧ len e.2.value ≤ 256) :
    ∀ e ∈ (run s ops).cache.items.entries, len e.1 ≤ 256 ∧ len e.2.value ≤ 256 := by
  induction ops generalizing s with
  | nil => exact h
  | cons op ops ih => exact ih (step s op) (sized_step s op h)

/-- C17: a key stored at time `t1` and stored again by a successful `Put` at time
`t2 ≥ t1` has afterwards the timestamp `t2` and the new value only; with
`maxItemAge > 0` a `Get` at a time `t` with `t - t2 ≤ maxItemAge` returns the new
value with `found = true`, whatever `t - t1` is, and a sweep at such a time `t` keeps
the entry in its time-based phase.  The proof uses neither `t1 ≤ t2` nor
`maxItemAge > 0`: the statement holds without them. -/
theorem reput_refreshes (c : Cache) (t1 t2 t : Int) (key v1 v2 : String)
    (alloc : Nat) (order : List String)
    (hk : len key ≤ 256) (h1 : len v1 ≤ 256) (h2 : len v2 ≤ 256)
    (hage : t - t2 ≤ c.maxItemAge) :
    (rePut c t1 t2 key v1 v2).items.lookup key = some ⟨v2, t2⟩ ∧
      (∀ item, (key, item) ∈ (rePut c t1 t2 key v1 v2).items.entries → item = ⟨v2, t2⟩) ∧
      ((rePut c t1 t2 key v1 v2).Get t key).1 = (v2, true) ∧
      ((rePut c t1 t2 key v1 v2).timePhase t).lookup key = some ⟨v2, t2⟩ ∧
      (memFires c.maxMemoryMB alloc = false →
        ((rePut c t1 t2 key v1 v2).cleanup t alloc order).items.lookup key =
          some ⟨v2, t2⟩) := by
  have hc2 : rePut c t1 t2 key v1 v2 =
      { c with items := (c.items.store key ⟨v1, t1⟩).store key ⟨v2, t2⟩ } := by
    unfold rePut
    rw [Put_ok c t1 key v1 hk h1, Put_ok _ t2 key v2 hk h2]
  have hl : (rePut c t1 t2 key v1 v2).items.lookup key = some ⟨v2, t2⟩ := by
    rw [hc2]; exact lookup_store_self _ key _
  have hage2 : (rePut c t1 t2 key v1 v2).maxItemAge = c.maxItemAge := by rw [hc2]
  have hmb : (rePut c t1 t2 key v1 v2).maxMemoryMB = c.maxMemoryMB := by rw [hc2]
  have htp : ((rePut c t1 t2 key v1 v2).timePhase t).lookup key = some ⟨v2, t2⟩ :=
    timePhase_lookup_live _ t hl (by rw [hage2]; exact hage)
  refine ⟨hl, ?_, ?_, htp, ?_⟩
  · intro item hmem
    have := lookup_of_mem _ hmem
    rw [hl] at this
    exact (Option.some.inj this).symm
  · have hlive : ¬ ((rePut c t1 t2 key v1 v2).maxItemAge > 0 ∧
        t - (CacheItem.mk v2 t2).timestamp > (rePut c t1 t2 key v1 v2).maxItemAge) := by
      rw [hage2]
      show ¬ (c.maxItemAge > 0 ∧ t - t2 > c.maxItemAge)
      omega
    rw [Get_live hl hlive]
  · intro hmem
    rw [cleanup_calm _ t order (by rw [hmb]; exact hmem)]
    exact htp

/-- C17 at a concrete input: time-to-live 10, `"k"` stored at time 0 and again at
time 8, read and swept at time 15. -/
theorem reput_refreshes_witness :
    (rePut cacheTTL 0 8 "k" "old" "new").items.lookup "k" = some ⟨"new", 8⟩ ∧
      (∀ item, ("k", item) ∈ (rePut cacheTTL 0 8 "k" "old" "new").items.entries →
        item = ⟨"new", 8⟩) ∧
      ((rePut cacheTTL 0 8 "k" "old" "new").Get 15 "k").1 = ("new", true) ∧
      ((rePut cacheTTL 0 8 "k" "old" "new").timePhase 15).lookup "k" = some ⟨"new", 8⟩ ∧
      (memFires cacheTTL.maxMemoryMB 0 = false →
        ((rePut cacheTTL 0 8 "k" "old" "new").cleanup 15 0 ["k"]).items.lookup "k" =
          some ⟨"new", 8⟩) :=
  reput_refreshes cacheTTL 0 8 15 "k" "old" "new" 0 ["k"] (by decide) (by decide) (by decide)
    (by decide)

/-- C18: in every state reached from `NewCache` by `Put`, `Get`, lazy-expiry
deletion, sweep (and `Stop`) steps, a `Get` with a key of more than 256 bytes
returns `("", false)`, launches no deletion, and leaves the state, the table
included, as it was. -/
theorem get_long_key (config : CacheConfig) (c0 : Cache) (h : NewCache config = some c0)
    (ops : List Op) (now : Int) (key : String) (hlong : len key > 256) :
    (run (initial c0) ops).cache.Get now key = (("", false), none) ∧
      step (run (initial c0) ops) (.get now key) = run (initial c0) ops := by
  have hsized := sized_run ops (initial c0) (by
    intro e he
    rw [initial, NewCache_items h] at he
    cases he)
  have hnone : (run (initial c0) ops).cache.items.lookup key = none := by
    cases hl : (run (initial c0) ops).cache.items.lookup key with
    | none => rfl
    | some item =>
      have := (hsized _ (mem_of_lookup _ hl)).1
      simp only at this
      omega
  have hget := Get_absent now hnone
  refine ⟨hget, ?_⟩
  simp only [step, hget]

set_option maxRecDepth 8000 in
/-- C18 at a concrete input: the steps `sampleOps` from `NewCache cfgTTL`, then a
`Get` with a key of 257 bytes. -/
theorem get_long_key_witness :
    NewCache cfgTTL = some cacheTTL ∧
      (run (initial cacheTTL) sampleOps).cache.Get 40 (bytes 257) = (("", false), none) ∧
      step (run (initial cacheTTL) sampleOps) (.get 40 (bytes 257)) =
        run (initial cacheTTL) sampleOps :=
  ⟨by decide,
    get_long_key cfgTTL cacheTTL (by decide) sampleOps 40 (bytes 257)
      (by rw [len_bytes]; decide)⟩

/-- C19 as stated fails: with a time-to-live of 10 and `"k"` stored at time 0, at
time 20 a `Get("k")` returns `found = false` and a `Put("k", "v")` returns
`existed = true`. -/
theorem put_existed_not_get_found :
    len "k" ≤ 256 ∧ len "v" ≤ 256 ∧
      (cacheTTL1.Get 20 "k").1.2 = false ∧ (cacheTTL1.Put 20 "k" "v").2.1 = true := by
  decide

/-- C19 amended: for keys and values of at most 256 bytes, if a `Get(key)` at time
`t` just before the `Put` returns `found = true` then `Put(key, value)` at time `t`
returns `existed = true`; and the two agree whenever the table holds no entry for
`key` that is older than `maxItemAge` at time `t` with `maxItemAge > 0`. -/
theorem put_existed_iff_get_found (c : Cache) (t : Int) (key value : String)
    (hk : len key ≤ 256) (hv : len value ≤ 256) :
    ((c.Get t key).1.2 = true → (c.Put t key value).2.1 = true) ∧
      ((∀ item, c.items.lookup key = some item →
          ¬ (c.maxItemAge > 0 ∧ t - item.timestamp > c.maxItemAge)) →
        ((c.Put t key value).2.1 = true ↔ (c.Get t key).1.2 = true)) := by
  rw [Put_ok c t key value hk hv]
  cases hl : c.items.lookup key with
  | none => simp [Get_absent t hl]
  | some item =>
    constructor
    · intro _; rfl
    · intro hfresh
      rw [Get_live hl (hfresh item rfl)]
      simp

/-- C19 amended, at concrete inputs: time-to-live 10 and `"k"` stored at time 0;
at time 5 both `Get` and `Put` report the key, and the absent key `"j"` is
reported by neither. -/
theorem put_existed_iff_get_found_witness :
    ((cacheTTL1.Get 5 "k").1.2 = true → (cacheTTL1.Put 5 "k" "v").2.1 = true) ∧
      ((cacheTTL1.Put 5 "k" "v").2.1 = true ↔ (cacheTTL1.Get 5 "k").1.2 = true) ∧
      ((cacheTTL1.Put 5 "j" "v").2.1 = true ↔ (cacheTTL1.Get 5 "j").1.2 = true) :=
  ⟨(put_existed_iff_get_found cacheTTL1 5 "k" "v" (by decide) (by decide)).1,
    (put_existed_iff_get_found cacheTTL1 5 "k" "v" (by decide) (by decide)).2
      (fun item hitem => by
        have h0 : cacheTTL1.items.lookup "k" = some ⟨"old", 0⟩ := by decide
        rw [h0] at hitem
        rw [← Option.some.inj hitem]
        decide),
    (put_existed_iff_get_found cacheTTL1 5 "j" "v" (by decide) (by decide)).2
      (fun item hitem => by
        have h0 : cacheTTL1.items.lookup "j" = none := by decide
        rw [h0] at hitem
        cases hitem)⟩

/-- C20 as stated fails: the PUT handler answers 200 to the empty key, and the
GET handler, asked right after for the empty key, answers 400. -/
theorem put_then_get_empty_key :
    len "" ≤ 256 ∧ len "v" ≤ 256 ∧
      (Handler.Put ⟨cachePlain⟩ 1 (some ⟨"", "v"⟩)).2 =
        (200, ⟨"OK", "Key inserted successfully", "", ""⟩) ∧
      ((Handler.Put ⟨cachePlain⟩ 1 (some ⟨"", "v"⟩)).1.Get 1 "").1 =
        (400, ⟨"ERROR", "Key parameter is required", "", ""⟩) := by
  decide

/-- C20 amended: for every non-empty key and every value, both at most 256 bytes
long, a PUT request at time `t` is answered 200 and a GET request for the same
key made next, at a time `t'` with `t ≤ t'` and `t' - t ≤ maxItemAge` (any `t'` when
`maxItemAge ≤ 0`), is answered 200 with status `"OK"`, that key and that value. -/
theorem put_then_get_handler (h : Handler) (t t' : Int) (key value : String)
    (hne : key ≠ "") (hk : len key ≤ 256) (hv : len value ≤ 256)
    (hage : h.cache.maxItemAge ≤ 0 ∨ (t ≤ t' ∧ t' - t ≤ h.cache.maxItemAge)) :
    (h.Put t (some ⟨key, value⟩)).2.1 = 200 ∧
      ((h.Put t (some ⟨key, value⟩)).1.Get t' key).1 = (200, ⟨"OK", "", key, value⟩) := by
  have hput : h.Put t (some ⟨key, value⟩) =
      (⟨{ h.cache with items := h.cache.items.store key ⟨value, t⟩ }⟩, 200,
        ⟨"OK", if (h.cache.items.lookup key).isSome then "Key updated successfully"
          else "Key inserted successfully", "", ""⟩) := by
    simp only [Handler.Put, Put_ok h.cache t key value hk hv]
  rw [hput]
  refine ⟨rfl, ?_⟩
  have hl : (Cache.mk (h.cache.items.store key ⟨value, t⟩) h.cache.maxMemoryMB
      h.cache.maxItemAge h.cache.cleanupTicker).items.lookup key = some ⟨value, t⟩ :=
    lookup_store_self _ key _
  have hlive : ¬ (h.cache.maxItemAge > 0 ∧ t' - t > h.cache.maxItemAge) := by omega
  simp only [Handler.Get, if_neg hne, Get_live hl hlive]

/-- C20 amended, at a concrete input: time-to-live 10, a PUT of `("j", "v")` at
time 5 and a GET of `"j"` at time 15. -/
theorem put_then_get_handler_witness :
    (Handler.Put ⟨cacheTTL1⟩ 5 (some ⟨"j", "v"⟩)).2.1 = 200 ∧
      ((Handler.Put ⟨cacheTTL1⟩ 5 (some ⟨"j", "v"⟩)).1.Get 15 "j").1 =
        (200, ⟨"OK", "", "j", "v"⟩) :=
  put_then_get_handler ⟨cacheTTL1⟩ 5 15 "j" "v" (by decide) (by decide) (by decide)
    (Or.inr ⟨by decide, by decide⟩)

end KVCache
